import Mathlib

/-!
# Verification of the repository-analysis pipeline

A shallow embedding of the repository's analysis pipeline
(`services/parser_service.py`): directory-tree building
(`get_directory_structure`), the node/edge pipeline (`parse_repo`) and
edge resolution (`create_edge`), together with theorems settling the
specification's claims about them.

Python strings are modelled as Lean `String` (a list of characters);
machine-level details (OS walk order, the iteration order of Python's
`set`) are modelled as explicit list orders carried by the input, and
Python library calls (`git`, `ast.parse`, `re.findall`,
`networkx.simple_cycles`, `os.listdir`) are modelled at their interface:
the input structure carries the data those calls would have produced,
and `simple_cycles` is replaced by an exhaustive, provably complete
enumeration of simple cycles.
-/

namespace Codeviz

/-! ## String utilities (mirroring Python string operations) -/

/-- Python `s.endswith(suffix)`. -/
def strEndsWith (s suffix : String) : Bool :=
  suffix.toList.isSuffixOf s.toList

/-- Python `s.startswith(pre)`. -/
def strStartsWith (s pre : String) : Bool :=
  pre.toList.isPrefixOf s.toList

/-- Python `pat in s` (substring containment). -/
def strContains (s pat : String) : Bool :=
  s.toList.tails.any (fun t => pat.toList.isPrefixOf t)

/-- Characters of the last `sep`-separated segment: the accumulator is reset
at each separator, so the result is Python `s.split(sep)[-1]`. -/
def lastSegAux (sep : Char) : List Char → List Char → List Char
  | [], acc => acc
  | c :: rest, acc =>
    if c = sep then lastSegAux sep rest []
    else lastSegAux sep rest (acc ++ [c])

/-- Python `s.split(sep)[-1]`. -/
def lastSegment (sep : Char) (s : String) : String :=
  ⟨lastSegAux sep s.toList []⟩

/-- Replace every (non-overlapping, left-to-right) occurrence of `pat` by
`rep`, as Python `s.replace(pat, rep)` does for a non-empty pattern.
(The pipeline only ever replaces the non-empty literals ".", ".js", ".ts".)
The `fuel` argument makes the recursion structural; each step consumes at
least one character, so `fuel = length` never runs out. -/
def replCharsAux (pat rep : List Char) : Nat → List Char → List Char
  | _, [] => []
  | 0, l => l
  | fuel + 1, c :: rest =>
    if pat.isPrefixOf (c :: rest) ∧ pat ≠ [] then
      rep ++ replCharsAux pat rep fuel (rest.drop (pat.length - 1))
    else
      c :: replCharsAux pat rep fuel rest

/-- Python-style replace-all on character lists. -/
def replChars (pat rep l : List Char) : List Char :=
  replCharsAux pat rep l.length l

/-- Python `s.replace(pat, rep)` for non-empty `pat`. -/
def replStr (s pat rep : String) : String :=
  ⟨replChars pat.toList rep.toList s.toList⟩

/-- The string `source ++ "-" ++ target`, the Python f-string
`f"{source}-{target}"` used both for edge ids and for cyclic-relation keys. -/
def edgeKey (s t : String) : String :=
  s ++ "-" ++ t

/-! ## Data model -/

/-- A node of the output graph: the dict
`{"id": rel_path, "label": file, "data": {"loc": loc, "churn": churn}}`
built in step 2 of `parse_repo`. -/
structure FileNode where
  id : String
  label : String
  loc : Nat
  churn : Nat
deriving DecidableEq, Repr

/-- An edge of the output graph: the dict
`{"id": f"{source}-{target}", "source": ..., "target": ..., "isCyclic": ...}`
built by `create_edge` and re-tagged in step 4 of `parse_repo`. -/
structure Edge where
  id : String
  source : String
  target : String
  isCyclic : Bool
deriving DecidableEq, Repr

/-- A Python `ast` statement relevant to import extraction: `ast.Import`
(with the list of `alias.name`s) or `ast.ImportFrom` (with its optional
`module`).  `ast.walk` order is the list order of the containing file. -/
inductive PyStmt where
  | imp (names : List String)
  | impFrom (module : Option String)
deriving DecidableEq, Repr

/-- The result of the text-level parsing/matching library calls on one
source file, i.e. the data `parse_repo` step 3 extracts from `content`:
for a `.py` file the `ast.parse` result (`none` when parsing raises),
for a `.java` file the matches of `import\s+([\w\.]+);`,
for a `.js/.jsx/.ts/.tsx` file the pairs of capture groups of the
import/require regex (one group per alternative, the other empty). -/
inductive ParsedContent where
  | py (stmts : Option (List PyStmt))
  | java (imports : List String)
  | js (groups : List (String × String))
deriving DecidableEq, Repr

/-- One file of the working tree as the pipeline observes it:
its `os.walk`-relative POSIX path, the result of the line-count read in
step 2 (`none`: `open` raised, giving `loc = 0`), and the result of the
content read in step 3 (`none`: `open`/`read` raised, giving no imports). -/
structure SrcFile where
  path : String
  locResult : Option Nat
  content : Option ParsedContent
deriving DecidableEq, Repr

/-- A filesystem entry as `get_directory_structure` observes it.  For a
directory, `denied = true` models `os.listdir` raising `PermissionError`
and `entries` is the `os.listdir` order. -/
inductive FsEntry where
  | file (name : String)
  | dir (name : String) (denied : Bool) (entries : List FsEntry)
deriving Repr

/-- A node of the serialized directory tree:
`{"name": ..., "type": "folder", "children": [...]}` or
`{"name": ..., "type": "file"}`. -/
inductive TreeNode where
  | folder (name : String) (children : List TreeNode)
  | file (name : String)
deriving Repr

/-- The repository as observed by one `parse_repo` run.
`files` is in `os.walk` order; `history` is `none` when `Repo(repo_path)`
or the head-tree traversal raises (git analysis failed as a whole),
otherwise the list of head-tree blob paths with, per path, the true
number of commits touching it (`none`: that path's `iter_commits` raised).
The iteration order of the Python `set` `file_map` is modelled as the
insertion order, which is determined by `files`; `root` is the tree
`get_directory_structure` walks. -/
structure RepoModel where
  files : List SrcFile
  history : Option (List (String × Option Nat))
  root : FsEntry

/-- The output aggregate `{"nodes": ..., "edges": ..., "tree": ...}`. -/
structure GraphDoc where
  nodes : List FileNode
  edges : List Edge
  tree : TreeNode

/-! ## Edge resolution (`create_edge`) -/

/-- The match condition of `create_edge`:
`known_file.endswith(target_suffix) or (target_suffix in known_file and
known_file.split("/")[-1].startswith(target_suffix))`. -/
def matchesSuffix (knownFile suffix : String) : Bool :=
  strEndsWith knownFile suffix ||
    (strContains knownFile suffix && strStartsWith (lastSegment '/' knownFile) suffix)

/-- `create_edge(source, target_suffix, file_map, edges)`: scan `file_map`
in iteration order; at the first match, if the match differs from `source`,
append one edge and stop; a match equal to `source` is skipped and the scan
continues; no match appends nothing.  The at-most-one appended edge is
returned via `Option`. -/
def create_edge (source suffix : String) : List String → Option Edge
  | [] => none
  | k :: rest =>
    if matchesSuffix k suffix then
      if source ≠ k then
        some { id := edgeKey source k, source := source, target := k, isCyclic := false }
      else create_edge source suffix rest
    else create_edge source suffix rest

/-! ## Import extraction (step 3 of `parse_repo`) -/

/-- The value of the Python variable `imported` after processing one AST
statement: for `ast.Import` the loop `for alias in ast_node.names:
imported = alias.name` keeps only the LAST name; for `ast.ImportFrom`,
`if ast_node.module: imported = ast_node.module` (truthiness: `None` and
`""` both leave `imported` unset). -/
def pyImported : PyStmt → Option String
  | .imp names => names.foldl (fun _ a => some a) none
  | .impFrom none => none
  | .impFrom (some m) => if m = "" then none else some m

/-- `target = imported.replace(".", "/") + ".py"`. -/
def pyTarget (imported : String) : String :=
  replStr imported "." "/" ++ ".py"

/-- `target = imp.split(".")[-1] + ".java"`. -/
def javaTarget (imp : String) : String :=
  lastSegment '.' imp ++ ".java"

/-- `clean_imp = imp.split("/")[-1].replace(".js", "").replace(".ts", "")`. -/
def jsCandidate (imp : String) : String :=
  replStr (replStr (lastSegment '/' imp) ".js" "") ".ts" ""

/-- Does the file name qualify for the node inventory:
`file.endswith((".py", ".java", ".js", ".jsx", ".ts", ".tsx"))`. -/
def qualifies (p : String) : Bool :=
  strEndsWith p ".py" || strEndsWith p ".java" || strEndsWith p ".js" ||
    strEndsWith p ".jsx" || strEndsWith p ".ts" || strEndsWith p ".tsx"

/-- The sequence of `target` suffix strings a file hands to `create_edge`,
in extraction order, following the `elif` dispatch of step 3 on the file
path's extension.  `none` content (read raised) and a failed `ast.parse`
contribute nothing; the JS branch takes `imp = match[0] or match[1]` and
guards `if imp:` (Python truthiness). -/
def fileRefs (path : String) (content : Option ParsedContent) : List String :=
  match content with
  | none => []
  | some pc =>
    if strEndsWith path ".py" then
      match pc with
      | .py none => []
      | .py (some stmts) =>
        stmts.filterMap (fun st =>
          match pyImported st with
          | none => none
          | some s => if s = "" then none else some (pyTarget s))
      | _ => []
    else if strEndsWith path ".java" then
      match pc with
      | .java imps => imps.map javaTarget
      | _ => []
    else if strEndsWith path ".js" || strEndsWith path ".jsx" ||
        strEndsWith path ".ts" || strEndsWith path ".tsx" then
      match pc with
      | .js groups =>
        groups.filterMap (fun m =>
          let imp := if m.1 ≠ "" then m.1 else m.2
          if imp = "" then none else some (jsCandidate imp))
      | _ => []
    else []

/-! ## Churn analysis (step 1 of `parse_repo`) and node building (step 2) -/

/-- `commit_counts`: empty when git analysis failed as a whole; otherwise,
per blob path, `len(list(repo.iter_commits(paths=path, max_count=50)))`
(i.e. the true count capped at 50), or 0 when that path's lookup raised. -/
def commitCounts : Option (List (String × Option Nat)) → List (String × Nat)
  | none => []
  | some h => h.map (fun pr => (pr.1, match pr.2 with | none => 0 | some n => min n 50))

/-- `commit_counts.get(rel_path, 0)`. -/
def churnOf (cc : List (String × Nat)) (p : String) : Nat :=
  (cc.lookup p).getD 0

/-- One inventory node: `id` is the relative path, `label` the file's base
name, `loc` the line count (0 when the read raised), `churn` the
commit-count lookup with default 0. -/
def mkNode (cc : List (String × Nat)) (f : SrcFile) : FileNode :=
  { id := f.path
    label := lastSegment '/' f.path
    loc := f.locResult.getD 0
    churn := churnOf cc f.path }

/-! ## Cycle detection (step 4 of `parse_repo`)

`networkx.simple_cycles` is a library call; it is modelled by an
exhaustive enumeration of the simple cycles of the arc list, proved
complete below (`isCycleOf_iff_mem_allSimpleCycles`).  The enumeration
lists every rotation of every cycle where `networkx` lists one rotation
per cycle; since step 4 only takes the SET of consecutive-pair strings,
and that pair set is rotation-invariant, the two agree. -/

/-- The consecutive (and wrap-around) vertex pairs
`(cycle[i], cycle[(i + 1) % len(cycle)])` of a cycle listing. -/
def cyclePairs (c : List String) : List (String × String) :=
  c.zip (c.rotate 1)

/-- `c` is a listing of a simple cycle of the arc list `g`: non-empty,
no repeated vertex, and every consecutive (wrap-around) pair is an arc. -/
def isCycleOf (g : List (String × String)) (c : List String) : Bool :=
  decide (c ≠ []) && decide c.Nodup &&
    (cyclePairs c).all (fun p => g.any (fun q => decide (q = p)))

/-- The vertex set of the directed graph: `G.add_edge` registers both
endpoints of every arc. -/
def graphVerts (g : List (String × String)) : List String :=
  (g.flatMap (fun p => [p.1, p.2])).dedup

/-- All simple-cycle listings of `g` (every rotation of every simple
cycle), by brute-force enumeration over duplicate-free vertex sequences. -/
def allSimpleCycles (g : List (String × String)) : List (List String) :=
  ((graphVerts g).sublists.flatMap List.permutations').filter (fun c => isCycleOf g c)

/-- The pair `(u, v)` lies on at least one simple (elementary) cycle of the
arc list `g`, as consecutive (wrap-around) vertices.  This is the
specification-side notion of "the edge participates in an import cycle". -/
def SimpleCycleThrough (g : List (String × String)) (u v : String) : Prop :=
  ∃ c, isCycleOf g c = true ∧ (u, v) ∈ cyclePairs c

/-- Decidable evaluator for `SimpleCycleThrough`
(see `simpleCycleThrough_iff`). -/
def onCycleB (g : List (String × String)) (u v : String) : Bool :=
  (allSimpleCycles g).any (fun c => (cyclePairs c).any (fun q => decide (q = (u, v))))

/-- The arc list of the `networkx` graph built from the edge list. -/
def edgeArcs (es : List Edge) : List (String × String) :=
  es.map (fun e => (e.source, e.target))

/-- The `cyclic_edges` set: the strings `f"{cycle[i]}-{cycle[(i+1)%n]}"`
over all enumerated cycles, as a list (only membership is ever used). -/
def cyclicKeys (es : List Edge) : List String :=
  (allSimpleCycles (edgeArcs es)).flatMap
    (fun c => (cyclePairs c).map (fun p => edgeKey p.1 p.2))

/-- Step 4: `edge["isCyclic"] = f"{source}-{target}" in cyclic_edges`
for every edge of the original edge list. -/
def tagCycles (es : List Edge) : List Edge :=
  es.map (fun e =>
    { e with isCyclic := (cyclicKeys es).any (fun k => decide (k = edgeKey e.source e.target)) })

/-! ## Directory tree builder (`get_directory_structure`)

`items.sort(key=lambda x: (not os.path.isdir(...), x.lower()))` sorts
stably by the tuple (folder-flag, lower-cased name) — tuples compare
lexicographically, `False < True` puts directories first, and strings
compare by code point.  Python's stable sort is modelled by a stable
insertion sort over the same total preorder (any two stable sorts of the
same list under the same preorder coincide). -/

/-- Lexicographic comparison of code-point lists
(Python string `<=` on the lower-cased names). -/
def natListLe : List Nat → List Nat → Bool
  | [], _ => true
  | _ :: _, [] => false
  | a :: as, b :: bs => if a < b then true else if b < a then false else natListLe as bs

/-- Python tuple `<=` on sort keys `(not isdir, name.lower())`, with the
boolean encoded as 0 (directory) / 1 (file). -/
def keyLe (a b : Nat × List Nat) : Bool :=
  if a.1 < b.1 then true else if b.1 < a.1 then false else natListLe a.2 b.2

/-- The child's displayed name. -/
def FsEntry.name : FsEntry → String
  | .file n => n
  | .dir n _ _ => n

/-- The Python sort key of a directory entry. -/
def fsKey : FsEntry → Nat × List Nat
  | .file n => (1, n.toList.map (fun c => c.toLower.toNat))
  | .dir n _ _ => (0, n.toList.map (fun c => c.toLower.toNat))

/-- Stable insertion of `x` into `l`: `x` goes before the first element it
compares `le` to, so elements equal under `le` keep their original order. -/
def insertLe (le : α → α → Bool) (x : α) : List α → List α
  | [] => [x]
  | y :: ys => if le x y then x :: y :: ys else y :: insertLe le x ys

/-- Stable insertion sort (models Python's stable `list.sort`). -/
def sortLe (le : α → α → Bool) : List α → List α
  | [] => []
  | x :: xs => insertLe le x (sortLe le xs)

/-- `get_directory_structure`: files map to leaf nodes; a directory lists
its entries (empty when `os.listdir` raised `PermissionError`), sorts them
by `(not isdir, name.lower())`, skips the hidden ones (name starting with
`'.'`) while iterating, and recurses.  (The entry list is `attach`ed before
sorting purely so the recursion carries its membership evidence; see
`buildTree_children` for the plain sort-filter-recurse reading.) -/
def buildTree : FsEntry → TreeNode
  | .file n => .file n
  | .dir n denied entries =>
    if denied then .folder n []
    else
      .folder n
        (((sortLe (fun a b => keyLe (fsKey a.val) (fsKey b.val)) entries.attach).filter
            (fun e => !(strStartsWith e.val.name "."))).map
          (fun ee => buildTree ee.val))
decreasing_by
  rename_i nm dn es _hdn
  have h3 := List.sizeOf_lt_of_mem ee.property
  simp only [FsEntry.dir.sizeOf_spec]
  omega

/-- The `"name"` field of a serialized tree node. -/
def TreeNode.nodeName : TreeNode → String
  | .folder n _ => n
  | .file n => n

/-- The `"children"` list of a serialized tree node (a file has none). -/
def TreeNode.childrenOf : TreeNode → List TreeNode
  | .folder _ cs => cs
  | .file _ => []

/-- The sort key re-read off a serialized node (folder before file,
then lower-cased name). -/
def nodeKey : TreeNode → Nat × List Nat
  | .folder n _ => (0, n.toList.map (fun c => c.toLower.toNat))
  | .file n => (1, n.toList.map (fun c => c.toLower.toNat))

/-! ## The pipeline (`parse_repo`) -/

/-- `parse_repo(repo_path)`: git churn analysis, file inventory (nodes and
the known-id collection `file_map`), per-node import extraction and edge
resolution, cycle tagging, and the directory tree. -/
def parseRepo (repo : RepoModel) : GraphDoc :=
  let cc := commitCounts repo.history
  let qfiles := repo.files.filter (fun f => qualifies f.path)
  let nodes := qfiles.map (mkNode cc)
  let fileMap := qfiles.map (fun f => f.path)
  let rawEdges := qfiles.flatMap
    (fun f => (fileRefs f.path f.content).filterMap (fun suf => create_edge f.path suf fileMap))
  { nodes := nodes
    edges := tagCycles rawEdges
    tree := buildTree repo.root }

/-- `parse_repo` with the iteration order of the Python set `file_map` made
explicit.  A real run observes the qualifying ids in SOME hash-dependent
order — each element exactly once, i.e. some permutation of the inserted
ids — and that order is "not guaranteed stable" across interpreter
processes (string hashing is seeded).  `parseRepo` is the run observing
insertion order; a second run on the same unchanged directory is a run at a
possibly different permutation. -/
def parseRepoOrd (repo : RepoModel) (fileMap : List String) : GraphDoc :=
  let cc := commitCounts repo.history
  let qfiles := repo.files.filter (fun f => qualifies f.path)
  let nodes := qfiles.map (mkNode cc)
  let rawEdges := qfiles.flatMap
    (fun f => (fileRefs f.path f.content).filterMap (fun suf => create_edge f.path suf fileMap))
  { nodes := nodes
    edges := tagCycles rawEdges
    tree := buildTree repo.root }

/-! ## Specification-side definition for the bracketed-import candidate -/

/-- The final-segment extension stripper: everything before the last `'.'`
of the segment, or the segment itself when it has no `'.'`. -/
def stripLastExt (s : String) : String :=
  let cs := s.toList
  if cs.contains '.' then ⟨((cs.reverse.dropWhile (fun c => c ≠ '.')).drop 1).reverse⟩
  else s

/-- Modelled from the spec's words, for refinement comparison only (claim
C4): "for bracketed-import languages, take the final path segment and strip
any extension already present". -/
def specBracketCandidate (imp : String) : String :=
  stripLastExt (lastSegment '/' imp)

/-! ## Example inputs used by witnesses and counterexamples -/

/-- A two-file repository: `app/main.py` containing `import utils.helpers`
(the spec's suffix-resolution scenario) and `utils/helpers.py`; git history
present, with the helpers path's per-path lookup raising. -/
def exRepo : RepoModel :=
  { files :=
      [ { path := "app/main.py", locResult := some 3,
          content := some (.py (some [.imp ["utils.helpers"]])) },
        { path := "utils/helpers.py", locResult := some 2,
          content := some (.py (some [])) } ]
    history := some [("app/main.py", some 7), ("utils/helpers.py", none)]
    root := .dir "repo" false [] }

/-- A one-file repository directory with no version-control metadata. -/
def exRepoNoHist : RepoModel :=
  { files := [ { path := "a.py", locResult := some 1, content := some (.py (some [])) } ]
    history := none
    root := .dir "repo" false [] }

/-- The spec's synthetic cycle-tagging edge set: A→B, B→C, C→A, D→E. -/
def synEdges : List Edge :=
  [ { id := "A-B", source := "A", target := "B", isCyclic := false },
    { id := "B-C", source := "B", target := "C", isCyclic := false },
    { id := "C-A", source := "C", target := "A", isCyclic := false },
    { id := "D-E", source := "D", target := "E", isCyclic := false } ]

/-- An edge list whose node ids contain `'-'`:
`"a.py" → "b.py-c.py"` (on no cycle) plus the 2-cycle
`"a.py-b.py" ⇄ "c.py"`.  The cyclic-relation string of the pair
`("a.py-b.py", "c.py")` and the id string of the acyclic edge are both
`"a.py-b.py-c.py"`. -/
def hyphenEdges : List Edge :=
  [ { id := "a.py-b.py-c.py", source := "a.py", target := "b.py-c.py", isCyclic := false },
    { id := "a.py-b.py-c.py", source := "a.py-b.py", target := "c.py", isCyclic := false },
    { id := "c.py-a.py-b.py", source := "c.py", target := "a.py-b.py", isCyclic := false } ]

/-- A repository in which the import of `m.py` has two known files matching
its candidate suffix `"x.py"`: `a/x.py` and `b/x.py`. -/
def orderRepo : RepoModel :=
  { files :=
      [ { path := "a/x.py", locResult := some 1, content := some (.py (some [])) },
        { path := "b/x.py", locResult := some 1, content := some (.py (some [])) },
        { path := "m.py", locResult := some 1, content := some (.py (some [.imp ["x"]])) } ]
    history := none
    root := .dir "repo" false [] }

/-- One iteration order of `orderRepo`'s `file_map`. -/
def orderA : List String := ["a/x.py", "b/x.py", "m.py"]

/-- Another iteration order of the same set (a permutation of `orderA`). -/
def orderB : List String := ["b/x.py", "a/x.py", "m.py"]

/-- The edge the `orderA` run resolves `m.py`'s import to. -/
def orderEdgeA : Edge :=
  { id := "m.py-a/x.py", source := "m.py", target := "a/x.py", isCyclic := false }

/-- The spec's tree-ordering scenario: a directory with subfolder `src`,
files `a.txt` and `B.txt`, and a hidden entry. -/
def exDir : FsEntry :=
  .dir "root" false [.file "a.txt", .dir "src" false [], .file "B.txt", .file ".git"]

/-- The single edge `parse_repo` produces on `exRepo` (the spec's
suffix-resolution scenario). -/
def exEdge : Edge :=
  { id := "app/main.py-utils/helpers.py", source := "app/main.py",
    target := "utils/helpers.py", isCyclic := false }

/-- The first node `parse_repo` produces on `exRepo`. -/
def exNode : FileNode :=
  { id := "app/main.py", label := "main.py", loc := 3, churn := 7 }

/-- The node `parse_repo` produces on `exRepoNoHist`. -/
def exNodeNoHist : FileNode :=
  { id := "a.py", label := "a.py", loc := 1, churn := 0 }

/-- The A→B edge of `synEdges` as cycle detection re-emits it. -/
def synEdgeAB : Edge :=
  { id := "A-B", source := "A", target := "B", isCyclic := true }

/-! ## Lemmas about the cycle enumeration -/

theorem cyclePairs_map_fst (c : List String) : (cyclePairs c).map Prod.fst = c := by
  unfold cyclePairs
  exact List.map_fst_zip c (c.rotate 1) (by rw [List.length_rotate])

theorem isCycleOf_spec {g : List (String × String)} {c : List String}
    (h : isCycleOf g c = true) :
    c ≠ [] ∧ c.Nodup ∧ ∀ p ∈ cyclePairs c, p ∈ g := by
  simp only [isCycleOf, Bool.and_eq_true, decide_eq_true_eq, List.all_eq_true,
    List.any_eq_true, exists_eq_right] at h
  exact ⟨h.1.1, h.1.2, h.2⟩

theorem subset_graphVerts {g : List (String × String)} {c : List String}
    (h : isCycleOf g c = true) : c ⊆ graphVerts g := by
  obtain ⟨-, -, hall⟩ := isCycleOf_spec h
  intro x hx
  rw [← cyclePairs_map_fst c] at hx
  obtain ⟨p, hp, rfl⟩ := List.mem_map.mp hx
  have hpg : p ∈ g := hall p hp
  unfold graphVerts
  rw [List.mem_dedup]
  exact List.mem_flatMap.mpr ⟨p, hpg, by simp⟩

theorem mem_allSimpleCycles {g : List (String × String)} {c : List String} :
    c ∈ allSimpleCycles g ↔ isCycleOf g c = true := by
  constructor
  · intro h
    exact (List.mem_filter.mp h).2
  · intro h
    obtain ⟨-, hnd, -⟩ := isCycleOf_spec h
    refine List.mem_filter.mpr ⟨?_, h⟩
    have hsub : List.Subperm c (graphVerts g) := hnd.subperm (subset_graphVerts h)
    obtain ⟨s, hsp, hss⟩ := hsub
    exact List.mem_flatMap.mpr
      ⟨s, List.mem_sublists.mpr hss, List.mem_permutations'.mpr hsp.symm⟩

theorem simpleCycleThrough_iff (g : List (String × String)) (u v : String) :
    SimpleCycleThrough g u v ↔ onCycleB g u v = true := by
  unfold SimpleCycleThrough onCycleB
  simp only [List.any_eq_true, decide_eq_true_eq, exists_eq_right]
  constructor
  · rintro ⟨c, hc, hp⟩
    exact ⟨c, mem_allSimpleCycles.mpr hc, hp⟩
  · rintro ⟨c, hc, hp⟩
    exact ⟨c, mem_allSimpleCycles.mp hc, hp⟩

theorem mem_cyclicKeys_iff (es : List Edge) (k : String) :
    k ∈ cyclicKeys es ↔
      ∃ u v, SimpleCycleThrough (edgeArcs es) u v ∧ edgeKey u v = k := by
  unfold cyclicKeys
  simp only [List.mem_flatMap, List.mem_map]
  constructor
  · rintro ⟨c, hc, p, hp, rfl⟩
    exact ⟨p.1, p.2, ⟨c, mem_allSimpleCycles.mp hc, hp⟩, rfl⟩
  · rintro ⟨u, v, ⟨c, hc, hp⟩, rfl⟩
    exact ⟨c, mem_allSimpleCycles.mpr hc, (u, v), hp, rfl⟩

/-! ## Lemmas about edge resolution -/

theorem create_edge_some {source suffix : String} {fm : List String} {e : Edge}
    (h : create_edge source suffix fm = some e) :
    e.source = source ∧ e.target ∈ fm ∧ source ≠ e.target ∧ e.isCyclic = false ∧
      e.id = edgeKey source e.target := by
  induction fm with
  | nil => simp [create_edge] at h
  | cons k rest ih =>
    by_cases hm : matchesSuffix k suffix = true
    · by_cases hs : source = k
      · rw [create_edge, if_pos hm, if_neg (by simpa using hs)] at h
        obtain ⟨h1, h2, h3, h4, h5⟩ := ih h
        exact ⟨h1, List.mem_cons_of_mem _ h2, h3, h4, h5⟩
      · rw [create_edge, if_pos hm, if_pos hs] at h
        cases h
        exact ⟨rfl, List.mem_cons_self _ _, hs, rfl, rfl⟩
    · rw [create_edge, if_neg hm] at h
      obtain ⟨h1, h2, h3, h4, h5⟩ := ih h
      exact ⟨h1, List.mem_cons_of_mem _ h2, h3, h4, h5⟩

theorem create_edge_isSome_iff (s suf : String) (o : List String) :
    (create_edge s suf o).isSome = true ↔
      ∃ k ∈ o, matchesSuffix k suf = true ∧ k ≠ s := by
  induction o with
  | nil => simp [create_edge]
  | cons k rest ih =>
    by_cases hm : matchesSuffix k suf = true
    · by_cases hs : s = k
      · subst hs
        rw [create_edge, if_pos hm, if_neg (by simp), ih]
        constructor
        · rintro ⟨k2, hk2, h1, h2⟩
          exact ⟨k2, List.mem_cons_of_mem _ hk2, h1, h2⟩
        · rintro ⟨k2, hk2, h1, h2⟩
          rcases List.mem_cons.mp hk2 with rfl | hk2
          · exact absurd rfl h2
          · exact ⟨k2, hk2, h1, h2⟩
      · rw [create_edge, if_pos hm, if_pos hs]
        constructor
        · intro _
          exact ⟨k, List.mem_cons_self _ _, hm, fun h => hs h.symm⟩
        · intro _
          rfl
    · rw [create_edge, if_neg hm, ih]
      constructor
      · rintro ⟨k2, hk2, h1, h2⟩
        exact ⟨k2, List.mem_cons_of_mem _ hk2, h1, h2⟩
      · rintro ⟨k2, hk2, h1, h2⟩
        rcases List.mem_cons.mp hk2 with rfl | hk2
        · exact absurd h1 hm
        · exact ⟨k2, hk2, h1, h2⟩

/-- Whether a raw reference resolves at all does not depend on the
iteration order of the known-id set — only the CHOICE of target does. -/
theorem create_edge_isSome_of_perm (s suf : String) {o1 o2 : List String}
    (hp : List.Perm o1 o2) :
    (create_edge s suf o1).isSome = (create_edge s suf o2).isSome := by
  rw [Bool.eq_iff_iff, create_edge_isSome_iff, create_edge_isSome_iff]
  constructor
  · rintro ⟨k, hk, h1, h2⟩
    exact ⟨k, hp.mem_iff.mp hk, h1, h2⟩
  · rintro ⟨k, hk, h1, h2⟩
    exact ⟨k, hp.mem_iff.mpr hk, h1, h2⟩

theorem tagCycles_map_source (es : List Edge) :
    (tagCycles es).map Edge.source = es.map Edge.source := by
  rw [tagCycles, List.map_map]
  rfl

theorem filterMap_create_edge_map_source (s : String) (refs : List String)
    {o1 o2 : List String} (hp : List.Perm o1 o2) :
    (refs.filterMap (fun suf => create_edge s suf o1)).map Edge.source =
    (refs.filterMap (fun suf => create_edge s suf o2)).map Edge.source := by
  induction refs with
  | nil => rfl
  | cons r rs ih =>
    rw [List.filterMap_cons, List.filterMap_cons]
    have hsome := create_edge_isSome_of_perm s r hp
    cases h1 : create_edge s r o1 with
    | none =>
      cases h2 : create_edge s r o2 with
      | none => exact ih
      | some e2 => rw [h1, h2] at hsome; simp at hsome
    | some e1 =>
      cases h2 : create_edge s r o2 with
      | none => rw [h1, h2] at hsome; simp at hsome
      | some e2 =>
        have hA := (create_edge_some h1).1
        have hB := (create_edge_some h2).1
        rw [List.map_cons, List.map_cons, hA, hB, ih]

theorem flatMap_edges_map_source (files : List SrcFile) {o1 o2 : List String}
    (hp : List.Perm o1 o2) :
    ((files.flatMap (fun f => (fileRefs f.path f.content).filterMap
        (fun suf => create_edge f.path suf o1))).map Edge.source) =
    ((files.flatMap (fun f => (fileRefs f.path f.content).filterMap
        (fun suf => create_edge f.path suf o2))).map Edge.source) := by
  induction files with
  | nil => rfl
  | cons f fs ih =>
    rw [List.flatMap_cons, List.flatMap_cons, List.map_append, List.map_append,
      filterMap_create_edge_map_source f.path _ hp, ih]

/-! ## Lemmas about churn -/

theorem churnOf_commitCounts_le (oh : Option (List (String × Option Nat))) (p : String) :
    churnOf (commitCounts oh) p ≤ 50 := by
  match oh with
  | none => simp [commitCounts, churnOf, List.lookup]
  | some l =>
    induction l with
    | nil => simp [commitCounts, churnOf, List.lookup]
    | cons pr rest ih =>
      simp only [commitCounts, List.map_cons, churnOf, List.lookup] at ih ⊢
      cases hp : (p == pr.1) with
      | false => simpa [hp] using ih
      | true =>
        simp only [hp]
        match pr.2 with
        | none => simp
        | some n => simp [Nat.min_le_right]

/-! ## Lemma about the Python overwrite loop for `ast.Import` -/

theorem foldl_overwrite (l : List String) (acc : Option String) :
    l.foldl (fun _ a => some a) acc = if l = [] then acc else l.getLast? := by
  induction l generalizing acc with
  | nil => rfl
  | cons a as ih =>
    simp only [List.foldl_cons, ih (some a), List.cons_ne_nil, if_false]
    match as with
    | [] => simp
    | b :: bs => simp

theorem pyImported_imp (names : List String) :
    pyImported (.imp names) = names.getLast? := by
  rw [pyImported, foldl_overwrite]
  match names with
  | [] => simp
  | a :: as => simp

/-! ## Lemmas about the entry ordering and the stable sort -/

theorem mem_insertLe {α : Type} (le : α → α → Bool) (x : α) (l : List α) (a : α) :
    a ∈ insertLe le x l ↔ a = x ∨ a ∈ l := by
  induction l with
  | nil => simp [insertLe]
  | cons y ys ih =>
    by_cases h : le x y = true
    · simp [insertLe, h]
    · simp only [insertLe, if_neg h, List.mem_cons, ih]
      tauto

theorem mem_sortLe {α : Type} (le : α → α → Bool) (l : List α) (a : α) :
    a ∈ sortLe le l ↔ a ∈ l := by
  induction l with
  | nil => simp [sortLe]
  | cons x xs ih => simp [sortLe, mem_insertLe, ih]

theorem map_insertLe {α β : Type} (f : α → β) (le : β → β → Bool) (x : α) (l : List α) :
    (insertLe (fun a b => le (f a) (f b)) x l).map f = insertLe le (f x) (l.map f) := by
  induction l with
  | nil => rfl
  | cons y ys ih =>
    by_cases h : le (f x) (f y) = true
    · simp [insertLe, h]
    · simp [insertLe, h, ih]

theorem map_sortLe {α β : Type} (f : α → β) (le : β → β → Bool) (l : List α) :
    (sortLe (fun a b => le (f a) (f b)) l).map f = sortLe le (l.map f) := by
  induction l with
  | nil => rfl
  | cons x xs ih => simp only [sortLe, List.map_cons, map_insertLe, ih]

theorem natListLe_total : ∀ a b : List Nat, natListLe a b = true ∨ natListLe b a = true := by
  intro a
  induction a with
  | nil => intro b; left; rfl
  | cons x xs ih =>
    intro b
    match b with
    | [] => right; rfl
    | y :: ys =>
      simp only [natListLe]
      rcases Nat.lt_trichotomy x y with h | h | h
      · left; simp [h]
      · subst h
        rcases ih ys with h2 | h2
        · left; simp [Nat.lt_irrefl, h2]
        · right; simp [Nat.lt_irrefl, h2]
      · right; simp [h]

theorem natListLe_trans :
    ∀ a b c : List Nat, natListLe a b = true → natListLe b c = true → natListLe a c = true := by
  intro a
  induction a with
  | nil => intro b c _ _; rfl
  | cons x xs ih =>
    intro b c hab hbc
    match b, c with
    | [], _ => simp [natListLe] at hab
    | y :: ys, [] => simp [natListLe] at hbc
    | y :: ys, z :: zs =>
      simp only [natListLe] at hab hbc ⊢
      by_cases hxy : x < y
      · by_cases hyz : y < z
        · rw [if_pos (Nat.lt_trans hxy hyz)]
        · rw [if_neg hyz] at hbc
          by_cases hzy : z < y
          · rw [if_pos hzy] at hbc; exact absurd hbc (by simp)
          · have hxz : x < z := by omega
            rw [if_pos hxz]
      · rw [if_neg hxy] at hab
        by_cases hyx : y < x
        · rw [if_pos hyx] at hab; exact absurd hab (by simp)
        · rw [if_neg hyx] at hab
          by_cases hyz : y < z
          · have hxz : x < z := by omega
            rw [if_pos hxz]
          · rw [if_neg hyz] at hbc
            by_cases hzy : z < y
            · rw [if_pos hzy] at hbc; exact absurd hbc (by simp)
            · rw [if_neg hzy] at hbc
              have hxz : ¬ x < z := by omega
              have hzx : ¬ z < x := by omega
              rw [if_neg hxz, if_neg hzx]
              exact ih ys zs hab hbc

theorem keyLe_total : ∀ a b : Nat × List Nat, keyLe a b = true ∨ keyLe b a = true := by
  intro a b
  unfold keyLe
  rcases Nat.lt_trichotomy a.1 b.1 with h | h | h
  · left; simp [h]
  · rw [h]
    simp only [Nat.lt_irrefl, if_false]
    exact natListLe_total a.2 b.2
  · right; simp [h]

theorem keyLe_trans : ∀ a b c : Nat × List Nat,
    keyLe a b = true → keyLe b c = true → keyLe a c = true := by
  intro a b c hab hbc
  unfold keyLe at hab hbc ⊢
  by_cases h1 : a.1 < b.1
  · by_cases h2 : b.1 < c.1
    · rw [if_pos (Nat.lt_trans h1 h2)]
    · rw [if_neg h2] at hbc
      by_cases h3 : c.1 < b.1
      · rw [if_pos h3] at hbc; exact absurd hbc (by simp)
      · have hac : a.1 < c.1 := by omega
        rw [if_pos hac]
  · rw [if_neg h1] at hab
    by_cases h4 : b.1 < a.1
    · rw [if_pos h4] at hab; exact absurd hab (by simp)
    · rw [if_neg h4] at hab
      by_cases h2 : b.1 < c.1
      · have hac : a.1 < c.1 := by omega
        rw [if_pos hac]
      · rw [if_neg h2] at hbc
        by_cases h3 : c.1 < b.1
        · rw [if_pos h3] at hbc; exact absurd hbc (by simp)
        · rw [if_neg h3] at hbc
          have hac : ¬ a.1 < c.1 := by omega
          have hca : ¬ c.1 < a.1 := by omega
          rw [if_neg hac, if_neg hca]
          exact natListLe_trans a.2 b.2 c.2 hab hbc

theorem pairwise_insertLe {α : Type} {le : α → α → Bool}
    (htot : ∀ a b, le a b = true ∨ le b a = true)
    (htr : ∀ a b c, le a b = true → le b c = true → le a c = true)
    (x : α) {l : List α} (h : l.Pairwise (fun a b => le a b = true)) :
    (insertLe le x l).Pairwise (fun a b => le a b = true) := by
  induction l with
  | nil => simp [insertLe]
  | cons y ys ih =>
    rw [List.pairwise_cons] at h
    obtain ⟨hy, hys⟩ := h
    by_cases hxy : le x y = true
    · rw [insertLe, if_pos hxy, List.pairwise_cons]
      refine ⟨?_, List.pairwise_cons.mpr ⟨hy, hys⟩⟩
      intro z hz
      rcases List.mem_cons.mp hz with rfl | hz
      · exact hxy
      · exact htr x y z hxy (hy z hz)
    · rw [insertLe, if_neg hxy, List.pairwise_cons]
      refine ⟨?_, ih hys⟩
      intro z hz
      rcases (mem_insertLe le x ys z).mp hz with rfl | hz
      · rcases htot z y with h2 | h2
        · exact absurd h2 hxy
        · exact h2
      · exact hy z hz

theorem pairwise_sortLe {α : Type} {le : α → α → Bool}
    (htot : ∀ a b, le a b = true ∨ le b a = true)
    (htr : ∀ a b c, le a b = true → le b c = true → le a c = true)
    (l : List α) :
    (sortLe le l).Pairwise (fun a b => le a b = true) := by
  induction l with
  | nil => simp [sortLe]
  | cons x xs ih => exact pairwise_insertLe htot htr x ih

/-! ## Lemmas about the tree builder -/

theorem buildTree_kids (es : List FsEntry) :
    ((sortLe (fun a b => keyLe (fsKey a.val) (fsKey b.val)) es.attach).filter
        (fun e => !(strStartsWith e.val.name "."))).map (fun ee => buildTree ee.val) =
      ((sortLe (fun a b => keyLe (fsKey a) (fsKey b)) es).filter
        (fun e => !(strStartsWith e.name "."))).map buildTree := by
  have h2 : ((sortLe (fun a b => keyLe (fsKey a.val) (fsKey b.val)) es.attach).filter
        (fun e => !(strStartsWith e.val.name "."))).map Subtype.val =
      ((sortLe (fun a b => keyLe (fsKey a.val) (fsKey b.val)) es.attach).map
          Subtype.val).filter (fun e => !(strStartsWith e.name ".")) := by
    rw [List.filter_map]
    rfl
  have h3 : (sortLe (fun a b => keyLe (fsKey a.val) (fsKey b.val)) es.attach).map
        Subtype.val = sortLe (fun a b => keyLe (fsKey a) (fsKey b)) es := by
    rw [map_sortLe Subtype.val (fun a b => keyLe (fsKey a) (fsKey b)) es.attach,
      List.attach_map_subtype_val]
  have h1 : ((sortLe (fun a b => keyLe (fsKey a.val) (fsKey b.val)) es.attach).filter
        (fun e => !(strStartsWith e.val.name "."))).map (fun ee => buildTree ee.val) =
      (((sortLe (fun a b => keyLe (fsKey a.val) (fsKey b.val)) es.attach).filter
        (fun e => !(strStartsWith e.val.name "."))).map Subtype.val).map buildTree := by
    rw [List.map_map]
    rfl
  rw [h1, h2, h3]

theorem buildTree_file (n : String) : buildTree (.file n) = .file n := by
  simp [buildTree]

theorem buildTree_dir_denied (n : String) (es : List FsEntry) :
    buildTree (.dir n true es) = .folder n [] := by
  simp [buildTree]

theorem buildTree_dir (n : String) (es : List FsEntry) :
    buildTree (.dir n false es) = .folder n
      (((sortLe (fun a b => keyLe (fsKey a) (fsKey b)) es).filter
          (fun e => !(strStartsWith e.name "."))).map buildTree) := by
  have h0 : buildTree (FsEntry.dir n false es) = .folder n
      (((sortLe (fun a b => keyLe (fsKey a.val) (fsKey b.val)) es.attach).filter
        (fun e => !(strStartsWith e.val.name "."))).map (fun ee => buildTree ee.val)) := by
    simp [buildTree]
  rw [h0, buildTree_kids]

theorem buildTree_children (n : String) (d : Bool) (es : List FsEntry) :
    (buildTree (.dir n d es)).childrenOf =
      if d then []
      else ((sortLe (fun a b => keyLe (fsKey a) (fsKey b)) es).filter
          (fun e => !(strStartsWith e.name "."))).map buildTree := by
  cases d with
  | true => rw [buildTree_dir_denied]; rfl
  | false => rw [buildTree_dir]; rfl

theorem nodeKey_buildTree (e : FsEntry) : nodeKey (buildTree e) = fsKey e := by
  cases e with
  | file n => simp [buildTree, nodeKey, fsKey]
  | dir n d es =>
    cases d with
    | true => simp [buildTree, nodeKey, fsKey]
    | false => simp [buildTree, nodeKey, fsKey]

theorem nodeName_buildTree (e : FsEntry) : (buildTree e).nodeName = e.name := by
  cases e with
  | file n => simp [buildTree, TreeNode.nodeName, FsEntry.name]
  | dir n d es =>
    cases d with
    | true => simp [buildTree, TreeNode.nodeName, FsEntry.name]
    | false => simp [buildTree, TreeNode.nodeName, FsEntry.name]

/-! ## Claim theorems -/

/-- C2: for every raw-reference candidate suffix and every known-id
collection (in its iteration order), `create_edge` emits the edge for the
FIRST id that matches — the id ends with the candidate, or the candidate is
a substring of the id and the id's final path segment starts with the
candidate — skipping any match equal to the source; the emitted edge is
`{id: "{source}-{target}", source, target, isCyclic: false}`, and with no
such id nothing is emitted. -/
theorem create_edge_first_match (source suffix : String) (fm : List String) :
    create_edge source suffix fm =
      (fm.find? (fun k =>
          (strEndsWith k suffix ||
            (strContains k suffix && strStartsWith (lastSegment '/' k) suffix)) &&
          decide (k ≠ source))).map
        (fun k => { id := edgeKey source k, source := source, target := k, isCyclic := false }) := by
  induction fm with
  | nil => rfl
  | cons k rest ih =>
    by_cases hm : matchesSuffix k suffix = true
    · by_cases hs : source = k
      · subst hs
        simp only [create_edge, if_pos hm, ne_eq, not_true_eq_false, if_false, ih,
          List.find?_cons, decide_False, Bool.and_false]
      · have hks : k ≠ source := fun h => hs h.symm
        simp only [create_edge, if_pos hm, ne_eq, hs, not_false_eq_true, if_true,
          List.find?_cons]
        have hp : ((strEndsWith k suffix ||
            (strContains k suffix && strStartsWith (lastSegment '/' k) suffix)) &&
            decide (k ≠ source)) = true := by
          have : matchesSuffix k suffix = true := hm
          rw [matchesSuffix] at this
          simp [this, hks]
        rw [hp]
        rfl
    · simp only [create_edge, if_neg hm, ih, List.find?_cons]
      have hp : ((strEndsWith k suffix ||
          (strContains k suffix && strStartsWith (lastSegment '/' k) suffix)) &&
          decide (k ≠ source)) = false := by
        rw [matchesSuffix] at hm
        simp only [Bool.not_eq_true] at hm
        simp [hm]
      rw [hp]

/-- C3 (counterexample): two runs of the pipeline on the same unchanged
repository are runs at two (hash-dependent, unstable across processes)
iteration orders of the same known-id set.  On `orderRepo`, whose import of
`m.py` is matched by both `a/x.py` and `b/x.py`, the orders `orderA` and
`orderB` — permutations of each other, so iteration orders of the SAME
set — give the same nodes but resolve the import to different targets:
the two edge sets are not equal even up to ordering. -/
theorem parse_repo_order_dependent :
    List.Perm orderA orderB ∧
    (parseRepoOrd orderRepo orderA).nodes = (parseRepoOrd orderRepo orderB).nodes ∧
    ¬ List.Perm (parseRepoOrd orderRepo orderA).edges
        (parseRepoOrd orderRepo orderB).edges := by
  refine ⟨List.Perm.swap "b/x.py" "a/x.py" ["m.py"], rfl, ?_⟩
  intro h
  have h1 : orderEdgeA ∈ (parseRepoOrd orderRepo orderB).edges :=
    h.mem_iff.mp (by decide)
  revert h1
  decide

/-- C3 (amended): across two runs on the same unchanged directory, the node
list is identical whatever iteration orders the runs observe; the edge
lists carry identical source columns (whether a reference resolves is
order-independent, only the chosen target varies, so equality of the edge
sets up to ordering holds exactly when the runs observe the same order,
e.g. within one interpreter process — not in general); and `parse_repo` is
the run observing the known-id set in insertion order. -/
theorem parse_repo_idempotent_modulo_order :
    (∀ (repo : RepoModel) (o1 o2 : List String),
        (parseRepoOrd repo o1).nodes = (parseRepoOrd repo o2).nodes) ∧
    (∀ (repo : RepoModel) (o1 o2 : List String), List.Perm o1 o2 →
        (parseRepoOrd repo o1).edges.map Edge.source =
          (parseRepoOrd repo o2).edges.map Edge.source) ∧
    (∀ repo : RepoModel, parseRepo repo =
        parseRepoOrd repo ((repo.files.filter (fun f => qualifies f.path)).map
          (fun f => f.path))) := by
  refine ⟨fun repo o1 o2 => rfl, ?_, fun repo => rfl⟩
  intro repo o1 o2 hp
  show (tagCycles _).map Edge.source = (tagCycles _).map Edge.source
  rw [tagCycles_map_source, tagCycles_map_source]
  exact flatMap_edges_map_source _ hp

/-- C3 (witness): the order-independence of the edge sources applied to the
two iteration orders of `orderRepo`'s known-id set. -/
theorem parse_repo_idempotent_modulo_order_witness :
    List.Perm orderA orderB ∧
    (parseRepoOrd orderRepo orderA).edges.map Edge.source =
      (parseRepoOrd orderRepo orderB).edges.map Edge.source :=
  ⟨List.Perm.swap "b/x.py" "a/x.py" ["m.py"],
    parse_repo_idempotent_modulo_order.2.1 orderRepo orderA orderB
      (List.Perm.swap "b/x.py" "a/x.py" ["m.py"])⟩

/-- C5: no edge of the output is a self-loop: `create_edge` only appends
an edge whose target differs from its source, and cycle tagging rewrites
only the `isCyclic` field. -/
theorem parse_repo_no_self_loops (repo : RepoModel) (e : Edge)
    (he : e ∈ (parseRepo repo).edges) : e.source ≠ e.target := by
  simp only [parseRepo, tagCycles] at he
  obtain ⟨e0, he0, rfl⟩ := List.mem_map.mp he
  obtain ⟨f, -, hf⟩ := List.mem_flatMap.mp he0
  obtain ⟨suf, -, hce⟩ := List.mem_filterMap.mp hf
  obtain ⟨h1, -, h3, -, -⟩ := create_edge_some hce
  simpa [h1] using h3

/-- C6: every edge endpoint is the id of a node of the output: the source
is the id of the node being scanned, and the target is drawn from
`file_map`, which contains exactly the node ids. -/
theorem parse_repo_edge_endpoints_known (repo : RepoModel) (e : Edge)
    (he : e ∈ (parseRepo repo).edges) :
    (∃ n ∈ (parseRepo repo).nodes, n.id = e.source) ∧
    (∃ n ∈ (parseRepo repo).nodes, n.id = e.target) := by
  simp only [parseRepo, tagCycles] at he ⊢
  obtain ⟨e0, he0, rfl⟩ := List.mem_map.mp he
  obtain ⟨f, hfmem, hf⟩ := List.mem_flatMap.mp he0
  obtain ⟨suf, -, hce⟩ := List.mem_filterMap.mp hf
  obtain ⟨h1, h2, -, -, -⟩ := create_edge_some hce
  constructor
  · exact ⟨mkNode (commitCounts repo.history) f,
      List.mem_map_of_mem _ hfmem, by simp [mkNode, h1]⟩
  · obtain ⟨f2, hf2, hf2p⟩ := List.mem_map.mp h2
    exact ⟨mkNode (commitCounts repo.history) f2,
      List.mem_map_of_mem _ hf2, by simp [mkNode, hf2p]⟩

/-- C7: for every node of the output, `loc` and `churn` are non-negative
counts and `churn` never exceeds the history-lookup cap of 50
(`iter_commits(..., max_count=50)`, with 0 on per-path failure or absence). -/
theorem parse_repo_metric_bounds (repo : RepoModel) (n : FileNode)
    (hn : n ∈ (parseRepo repo).nodes) :
    0 ≤ n.loc ∧ 0 ≤ n.churn ∧ n.churn ≤ 50 := by
  simp only [parseRepo] at hn
  obtain ⟨f, -, rfl⟩ := List.mem_map.mp hn
  exact ⟨Nat.zero_le _, Nat.zero_le _, churnOf_commitCounts_le repo.history f.path⟩

/-- C8: when history access fails for the whole repository (no
version-control metadata), `parse_repo` still returns a graph — the
failure is absorbed into an empty `commit_counts` — and every node's
churn is the default 0. -/
theorem parse_repo_no_history_churn_zero (repo : RepoModel)
    (hh : repo.history = none) :
    ∀ n ∈ (parseRepo repo).nodes, n.churn = 0 := by
  intro n hn
  simp only [parseRepo] at hn
  obtain ⟨f, -, rfl⟩ := List.mem_map.mp hn
  simp [mkNode, churnOf, commitCounts, hh, List.lookup]

/-- C1 (counterexample): an edge can be tagged `isCyclic = true` although
its `(source, target)` pair lies on no simple cycle, because the tagging
compares the STRINGS `"{source}-{target}"`: with hyphens in ids, the key of
the acyclic edge `"a.py" → "b.py-c.py"` collides with the cyclic-relation
string of the pair `("a.py-b.py", "c.py")`. -/
theorem cycle_tagging_hyphen_collision :
    (∃ e ∈ tagCycles hyphenEdges,
        e.source = "a.py" ∧ e.target = "b.py-c.py" ∧ e.isCyclic = true) ∧
    ¬ SimpleCycleThrough (edgeArcs hyphenEdges) "a.py" "b.py-c.py" := by
  constructor
  · decide
  · rw [simpleCycleThrough_iff]
    decide

/-- C1 (amended): after cycle detection, an edge has `isCyclic = true` iff
the string `"{source}-{target}"` equals `"{u}-{v}"` for SOME consecutive
pair `(u, v)` on a simple cycle — which coincides with the edge's own pair
lying on a simple cycle whenever no id embeds a hyphen ambiguity — and on
the synthetic edge set A→B, B→C, C→A, D→E the first three edges are tagged
`true` and D→E `false`. -/
theorem cycle_tagging_key_strings :
    (∀ (es : List Edge), ∀ e ∈ tagCycles es,
        (e.isCyclic = true ↔
          ∃ u v, SimpleCycleThrough (edgeArcs es) u v ∧
            edgeKey u v = edgeKey e.source e.target)) ∧
    (tagCycles synEdges).map (fun e => (e.source, e.target, e.isCyclic)) =
      [("A", "B", true), ("B", "C", true), ("C", "A", true), ("D", "E", false)] := by
  constructor
  · intro es e he
    obtain ⟨e0, -, rfl⟩ := List.mem_map.mp he
    show ((cyclicKeys es).any
        (fun k => decide (k = edgeKey e0.source e0.target)) = true) ↔ _
    simp only [List.any_eq_true, decide_eq_true_eq, exists_eq_right]
    exact mem_cyclicKeys_iff es _
  · decide

/-- C1 (witness): the general characterization applied to the A→B edge of
the synthetic edge set. -/
theorem cycle_tagging_key_strings_witness :
    synEdgeAB ∈ tagCycles synEdges ∧
    (synEdgeAB.isCyclic = true ↔
      ∃ u v, SimpleCycleThrough (edgeArcs synEdges) u v ∧
        edgeKey u v = edgeKey synEdgeAB.source synEdgeAB.target) :=
  ⟨by decide, cycle_tagging_key_strings.1 synEdges synEdgeAB (by decide)⟩

/-- C4 (counterexample): for the bracketed-import reference `"a.json"` the
pipeline hands the resolver the candidate `"aon"` — `.replace(".js", "")`
deletes the INNER occurrence of `".js"` — whereas final-segment
extension-stripping would give `"a"`. -/
theorem js_candidate_not_extension_strip :
    fileRefs "m.js" (some (.js [("a.json", "")])) = ["aon"] ∧
    specBracketCandidate "a.json" = "a" ∧ ("aon" : String) ≠ "a" :=
  ⟨rfl, rfl, by decide⟩

/-- C4 (amended): for every raw reference of a bracketed-import (JS-family)
file, the candidate handed to the resolver is the final path segment with
every occurrence of the substring `".js"` and then of `".ts"` deleted —
which strips a trailing `.js`/`.ts` extension, but also mangles inner
occurrences (e.g. `"a.json"` ↦ `"aon"`) and leaves other extensions such as
`.css` in place. -/
theorem js_candidate_strips_js_ts (p : String) (gs : List (String × String))
    (hjs : (strEndsWith p ".js" || strEndsWith p ".jsx" ||
        strEndsWith p ".ts" || strEndsWith p ".tsx") = true)
    (hpy : strEndsWith p ".py" = false) (hjava : strEndsWith p ".java" = false) :
    fileRefs p (some (.js gs)) =
      gs.filterMap (fun m =>
        let imp := if m.1 ≠ "" then m.1 else m.2
        if imp = "" then none
        else some (replStr (replStr (lastSegment '/' imp) ".js" "") ".ts" "")) := by
  simp only [fileRefs, hpy, hjava, hjs, Bool.false_eq_true, if_false, if_true]
  rfl

/-- C4 (witness): the amended candidate rule evaluated on a `.jsx` file
importing `"comp.jsx"`. -/
theorem js_candidate_strips_js_ts_witness :
    (strEndsWith "m.jsx" ".js" || strEndsWith "m.jsx" ".jsx" ||
        strEndsWith "m.jsx" ".ts" || strEndsWith "m.jsx" ".tsx") = true ∧
    strEndsWith "m.jsx" ".py" = false ∧
    strEndsWith "m.jsx" ".java" = false ∧
    fileRefs "m.jsx" (some (.js [("comp.jsx", "")])) =
      [("comp.jsx", "")].filterMap (fun m =>
        let imp := if m.1 ≠ "" then m.1 else m.2
        if imp = "" then none
        else some (replStr (replStr (lastSegment '/' imp) ".js" "") ".ts" "")) :=
  ⟨rfl, rfl, rfl, js_candidate_strips_js_ts "m.jsx" [("comp.jsx", "")] rfl rfl rfl⟩

/-- C5 (witness): the single resolved edge of the example repository is not
a self-loop. -/
theorem parse_repo_no_self_loops_witness :
    exEdge ∈ (parseRepo exRepo).edges ∧ exEdge.source ≠ exEdge.target :=
  ⟨by decide, parse_repo_no_self_loops exRepo exEdge (by decide)⟩

/-- C6 (witness): both endpoints of the example repository's edge are node
ids of the output. -/
theorem parse_repo_edge_endpoints_known_witness :
    exEdge ∈ (parseRepo exRepo).edges ∧
    ((∃ n ∈ (parseRepo exRepo).nodes, n.id = exEdge.source) ∧
      (∃ n ∈ (parseRepo exRepo).nodes, n.id = exEdge.target)) :=
  ⟨by decide, parse_repo_edge_endpoints_known exRepo exEdge (by decide)⟩

/-- C7 (witness): the metric bounds evaluated on the example repository's
first node (`loc = 3`, `churn = 7`). -/
theorem parse_repo_metric_bounds_witness :
    exNode ∈ (parseRepo exRepo).nodes ∧
    (0 ≤ exNode.loc ∧ 0 ≤ exNode.churn ∧ exNode.churn ≤ 50) :=
  ⟨by decide, parse_repo_metric_bounds exRepo exNode (by decide)⟩

/-- C8 (witness): on the history-less repository, the emitted node carries
churn 0. -/
theorem parse_repo_no_history_churn_zero_witness :
    exRepoNoHist.history = none ∧ exNodeNoHist ∈ (parseRepo exRepoNoHist).nodes ∧
    exNodeNoHist.churn = 0 :=
  ⟨rfl, by decide, parse_repo_no_history_churn_zero exRepoNoHist rfl exNodeNoHist (by decide)⟩

/-- C10: a single Python `import a, b, c` statement contributes the
reference of its LAST listed module only — the `for alias in
ast_node.names` loop overwrites `imported` — so earlier names in the same
statement produce no reference (and hence no edge). -/
theorem py_import_keeps_last_name (p m : String) (names : List String)
    (hp : strEndsWith p ".py" = true) (hm : names.getLast? = some m)
    (hne : m ≠ "") :
    fileRefs p (some (.py (some [.imp names]))) = [replStr m "." "/" ++ ".py"] := by
  simp only [fileRefs, if_pos hp, List.filterMap]
  rw [pyImported_imp, hm]
  simp [hne, pyTarget]

/-- C10 (witness): `import a, b, c` in a `.py` file yields exactly the
reference derived from `c`. -/
theorem py_import_keeps_last_name_witness :
    strEndsWith "m.py" ".py" = true ∧
    (["a", "b", "c"] : List String).getLast? = some "c" ∧ ("c" : String) ≠ "" ∧
    fileRefs "m.py" (some (.py (some [.imp ["a", "b", "c"]]))) =
      [replStr "c" "." "/" ++ ".py"] :=
  ⟨rfl, rfl, by decide,
    py_import_keeps_last_name "m.py" "c" ["a", "b", "c"] rfl rfl (by decide)⟩

/-- C9: the tree builder returns an empty child list for a directory whose
listing is permission-denied; every emitted child's name avoids the hidden
marker `'.'`; children are ordered by the key (folders-before-files,
then case-insensitive name); and the spec's scenario directory with
subfolder `src`, files `a.txt` and `B.txt` (plus a hidden `.git`) yields
children `[src, a.txt, B.txt]`. -/
theorem tree_builder_spec :
    (∀ (n : String) (es : List FsEntry), buildTree (.dir n true es) = .folder n []) ∧
    (∀ (n : String) (d : Bool) (es : List FsEntry),
        ∀ c ∈ (buildTree (.dir n d es)).childrenOf,
          strStartsWith c.nodeName "." = false) ∧
    (∀ (n : String) (d : Bool) (es : List FsEntry),
        ((buildTree (.dir n d es)).childrenOf.map nodeKey).Pairwise
          (fun a b => keyLe a b = true)) ∧
    buildTree exDir = .folder "root" [.folder "src" [], .file "a.txt", .file "B.txt"] := by
  refine ⟨buildTree_dir_denied, ?_, ?_, ?_⟩
  · intro n d es c hc
    rw [buildTree_children] at hc
    cases d with
    | true => simp at hc
    | false =>
      rw [if_neg (by simp)] at hc
      obtain ⟨e, he, rfl⟩ := List.mem_map.mp hc
      rw [nodeName_buildTree]
      have := (List.mem_filter.mp he).2
      simpa using this
  · intro n d es
    rw [buildTree_children]
    cases d with
    | true => simp
    | false =>
      rw [if_neg (by simp), List.map_map]
      have hcomp : nodeKey ∘ buildTree = fsKey := funext nodeKey_buildTree
      rw [hcomp, List.pairwise_map]
      exact (pairwise_sortLe
        (fun a b => keyLe_total (fsKey a) (fsKey b))
        (fun a b c => keyLe_trans (fsKey a) (fsKey b) (fsKey c)) es).filter _
  · rw [show exDir = FsEntry.dir "root" false
        [.file "a.txt", .dir "src" false [], .file "B.txt", .file ".git"] from rfl,
      buildTree_dir]
    show TreeNode.folder "root" (List.map buildTree
        [FsEntry.dir "src" false [], FsEntry.file "a.txt", FsEntry.file "B.txt"]) = _
    rw [List.map_cons, List.map_cons, List.map_cons, List.map_nil,
      buildTree_dir, buildTree_file, buildTree_file]
    rfl

/-- C9 (witness): the hidden-name exclusion applied to the scenario
directory's `src` child. -/
theorem tree_builder_spec_witness :
    TreeNode.folder "src" [] ∈ (buildTree exDir).childrenOf ∧
    strStartsWith (TreeNode.folder "src" []).nodeName "." = false := by
  have hmem : TreeNode.folder "src" [] ∈ (buildTree exDir).childrenOf := by
    rw [show buildTree exDir =
        .folder "root" [.folder "src" [], .file "a.txt", .file "B.txt"]
      from tree_builder_spec.2.2.2]
    exact List.mem_cons_self _ _
  exact ⟨hmem, tree_builder_spec.2.1 "root" false
    [.file "a.txt", .dir "src" false [], .file "B.txt", .file ".git"]
    (TreeNode.folder "src" []) hmem⟩

end Codeviz
